import Mathlib

/-!
Shallow embedding of the text-analytics core of a social-media post
analysis application (`app.py`): text normalization, hashtag filtering,
sentiment scoring, frequency ranking and windowed co-occurrence graph
construction.  Strings are modelled as `List Char`; Python `Counter` is
modelled as an association list in first-insertion order;
`Counter.most_common` is a stable descending sort by count.
-/

/-- Whitespace characters, embedding Python's `\s` class (restricted to the
ASCII whitespace characters; `11` and `12` are vertical tab and form feed). -/
def isWsChar (c : Char) : Bool :=
  c == ' ' || c == '\t' || c == '\n' || c == '\r' ||
  c == Char.ofNat 11 || c == Char.ofNat 12

/-- Word characters, embedding Python's `\w` class: ASCII alphanumerics and
underscore, plus the Unicode letter ranges relevant to the application's
Japanese/Latin input (Latin extended, kana, CJK ideographs, half-width kana). -/
def isWordChar (c : Char) : Bool :=
  decide ((0x30 ≤ c.toNat ∧ c.toNat ≤ 0x39) ∨
    (0x41 ≤ c.toNat ∧ c.toNat ≤ 0x5A) ∨
    (0x61 ≤ c.toNat ∧ c.toNat ≤ 0x7A) ∨
    c.toNat = 0x5F ∨
    (0xC0 ≤ c.toNat ∧ c.toNat ≤ 0x24F) ∨
    (0x3040 ≤ c.toNat ∧ c.toNat ≤ 0x30FF) ∨
    (0x3400 ≤ c.toNat ∧ c.toNat ≤ 0x9FFF) ∨
    (0xFF66 ≤ c.toNat ∧ c.toNat ≤ 0xFF9D))

/-- Emoji code points, embedding the `emoji` library's removal set over the
principal emoji blocks (symbols and pictographs, misc symbols, arrows block,
variation selector 16, zero-width joiner). -/
def isEmojiChar (c : Char) : Bool :=
  decide ((0x1F000 ≤ c.toNat ∧ c.toNat ≤ 0x1FAFF) ∨
    (0x2600 ≤ c.toNat ∧ c.toNat ≤ 0x27BF) ∨
    (0x2B00 ≤ c.toNat ∧ c.toNat ≤ 0x2BFF) ∨
    c.toNat = 0xFE0F ∨ c.toNat = 0x200D)

/-- Characters from the URL body class of the removal regex
`http[s]?://(?:[a-zA-Z]|[0-9]|[$-_@.&+]|[!*\\(\\),]|(?:%[0-9a-fA-F][0-9a-fA-F]))+`:
every alternative consumes one character from this set (the three-character
`%hh` alternative is subsumed because `%` lies in the `$-_` range). -/
def isUrlChar (c : Char) : Bool :=
  decide ((0x41 ≤ c.toNat ∧ c.toNat ≤ 0x5A) ∨
    (0x61 ≤ c.toNat ∧ c.toNat ≤ 0x7A) ∨
    (0x30 ≤ c.toNat ∧ c.toNat ≤ 0x39) ∨
    (0x24 ≤ c.toNat ∧ c.toNat ≤ 0x5F) ∨
    c.toNat = 0x21 ∨ c.toNat = 0x2A ∨ c.toNat = 0x5C ∨
    c.toNat = 0x28 ∨ c.toNat = 0x29 ∨ c.toNat = 0x2C)

/-- Tail of a URL match after `http[s]?://`: the regex `+` demands at least
one URL-body character and then greedily consumes the maximal run; the
remainder after that run is returned. -/
def urlTail? (r : List Char) : Option (List Char) :=
  match r with
  | [] => none
  | x :: _ => if isUrlChar x then some (r.dropWhile isUrlChar) else none

/-- Match of the URL regex at the head of the list: literal `http`, optional
`s`, literal `://`, then a non-empty maximal run of URL-body characters.
Returns the remainder after the match.  The optional `s` needs no
backtracking: when `s` is present but `://` does not follow it, the
zero-width alternative also fails since `s ≠ :`, so trying the `s` branch
first is exact. -/
def matchUrl? (l : List Char) : Option (List Char) :=
  match l with
  | 'h' :: 't' :: 't' :: 'p' :: 's' :: ':' :: '/' :: '/' :: r => urlTail? r
  | 'h' :: 't' :: 't' :: 'p' :: ':' :: '/' :: '/' :: r => urlTail? r
  | _ => none

/-- Left-to-right scan of `re.sub(url_regex, '', text)`: at each position try
the URL pattern; on a match drop it and continue after the match, otherwise
keep the character.  Fuel-based so that the definition is structurally
recursive; a match always consumes at least eight characters, so fuel equal
to the input length suffices. -/
def removeUrlsF : Nat → List Char → List Char
  | 0, l => l
  | _ + 1, [] => []
  | fuel + 1, c :: cs =>
    match matchUrl? (c :: cs) with
    | some rest => removeUrlsF fuel rest
    | none => c :: removeUrlsF fuel cs

/-- Step 1 of `preprocess_text`: URL removal. -/
def removeUrls (l : List Char) : List Char :=
  removeUrlsF l.length l

/-- Match of the mention regex `@\w+` at the head of the list. -/
def matchMention? (l : List Char) : Option (List Char) :=
  match l with
  | '@' :: r =>
    match r with
    | [] => none
    | x :: _ => if isWordChar x then some (r.dropWhile isWordChar) else none
  | _ => none

/-- Left-to-right scan of `re.sub(r'@\w+', '', text)`, fuel-based as above. -/
def removeMentionsF : Nat → List Char → List Char
  | 0, l => l
  | _ + 1, [] => []
  | fuel + 1, c :: cs =>
    match matchMention? (c :: cs) with
    | some rest => removeMentionsF fuel rest
    | none => c :: removeMentionsF fuel cs

/-- Step 2 of `preprocess_text`: mention removal. -/
def removeMentions (l : List Char) : List Char :=
  removeMentionsF l.length l

/-- Step 3 of `preprocess_text`: `emoji.replace_emoji(text, replace='')`,
removal of every emoji code point. -/
def removeEmoji (l : List Char) : List Char :=
  l.filter (fun c => !isEmojiChar c)

/-- Step 4 of `preprocess_text`: `re.sub(r'[^\w\s#]', ' ', text)`, replacing
every character that is not a word character, whitespace or `#` by a space. -/
def replaceSpecial (l : List Char) : List Char :=
  l.map (fun c => if isWordChar c || isWsChar c || c == '#' then c else ' ')

/-- Step 5a of `preprocess_text`: `re.sub(r'\s+', ' ', text)`, collapsing
each maximal whitespace run to a single space (emitted at the run's last
character, which makes the recursion structural). -/
def collapseWs : List Char → List Char
  | [] => []
  | [c] => if isWsChar c then [' '] else [c]
  | c :: d :: cs =>
    if isWsChar c then
      (if isWsChar d then collapseWs (d :: cs) else ' ' :: collapseWs (d :: cs))
    else c :: collapseWs (d :: cs)

/-- Step 5b of `preprocess_text`: `.strip()`, dropping whitespace from both
ends. -/
def stripSpaces (l : List Char) : List Char :=
  ((l.dropWhile isWsChar).reverse.dropWhile isWsChar).reverse

/-- Composition of the five normalization steps of `preprocess_text` on a
non-null string, in source order. -/
def preprocessStr (l : List Char) : List Char :=
  stripSpaces (collapseWs (replaceSpecial (removeEmoji (removeMentions (removeUrls l)))))

/-- Full `preprocess_text`: a missing (`pd.isna`) input yields the empty
string, otherwise the five steps run in order. -/
def preprocess_text : Option (List Char) → List Char
  | none => []
  | some l => preprocessStr l

/-- Sentiment scoring `analyze_sentiment`: a missing or empty input scores
`0`; otherwise the external `TextBlob` polarity model is consulted, with
`none` modelling an exception, which the bare `except:` maps to `0`. -/
def analyze_sentiment (model : List Char → Option ℚ) : Option (List Char) → ℚ
  | none => 0
  | some t => if t = [] then 0 else match model t with
    | some p => p
    | none => 0

/-- Lowercasing, embedding `str.lower()` on the relevant alphabets. -/
def lowerStr (l : List Char) : List Char :=
  l.map Char.toLower

/-- Substring test: `needle` occurs contiguously inside `hay`.  This embeds
`str.contains(pat, case=False)` for patterns free of regex metacharacters
(the pattern is a regex in pandas, but the queries at issue are literal). -/
def containsSub (hay needle : List Char) : Bool :=
  (List.range (hay.length + 1)).any (fun i => needle.isPrefixOf (hay.drop i))

/-- A post of the enriched batch: its normalized text
(`テキスト_処理済み` column) and its extracted hashtags (`ハッシュタグ`
column). -/
structure Post where
  normalized : List Char
  hashtags : List (List Char)
deriving DecidableEq, Repr

/-- Hashtag filtering `filter_by_hashtag`: an empty query returns the batch
unchanged; otherwise the query is lowercased and a first pass keeps posts
whose normalized text contains it case-insensitively; only if that pass is
empty does a second pass match the query inside any extracted hashtag. -/
def filter_by_hashtag (posts : List Post) (hashtag : List Char) : List Post :=
  if hashtag = [] then posts
  else
    let h := lowerStr hashtag
    let filtered := posts.filter (fun p => containsSub (lowerStr p.normalized) h)
    if filtered.length = 0 then
      posts.filter (fun p => p.hashtags.any (fun tag => containsSub (lowerStr tag) h))
    else filtered

/-- Distinct keys of a list in first-occurrence order (the key order of a
Python `Counter`, whose underlying dict preserves insertion order), with
fuel for structural recursion; fuel equal to the list length suffices. -/
def keysInOrderF {α : Type} [DecidableEq α] : Nat → List α → List α
  | 0, _ => []
  | _ + 1, [] => []
  | fuel + 1, x :: xs => x :: keysInOrderF fuel (xs.filter (fun y => y != x))

/-- Distinct keys of a list in first-occurrence order. -/
def keysInOrder {α : Type} [DecidableEq α] (l : List α) : List α :=
  keysInOrderF l.length l

/-- Python `Counter(l)` as an association list: the distinct keys in
first-occurrence order, each with its multiplicity in `l`. -/
def counter {α : Type} [DecidableEq α] (l : List α) : List (α × Nat) :=
  (keysInOrder l).map (fun k => (k, l.count k))

/-- Multiplicity of an element in a list (the count a `Counter` assigns),
with the equality test induced by `DecidableEq` as in `counter`. -/
def countOcc {α : Type} [DecidableEq α] (a : α) (l : List α) : Nat :=
  l.count a

/-- Index of the first occurrence of an element, with the equality test
induced by `DecidableEq` as in `counter`. -/
def firstIdx {α : Type} [DecidableEq α] (a : α) (l : List α) : Nat :=
  l.indexOf a

/-- Stable descending insertion by count: the new entry goes in front of the
first entry whose count does not exceed it, so earlier entries win ties. -/
def insertDesc {α : Type} (x : α × Nat) : List (α × Nat) → List (α × Nat)
  | [] => [x]
  | y :: ys => if y.2 ≤ x.2 then x :: y :: ys else y :: insertDesc x ys

/-- Stable insertion sort by descending count, embedding the stable
`sorted(..., key=count, reverse=True)` used by `Counter.most_common`. -/
def sortByCountDesc {α : Type} : List (α × Nat) → List (α × Nat)
  | [] => []
  | x :: xs => insertDesc x (sortByCountDesc xs)

/-- Python `Counter(l).most_common(n)`: count the list, sort stably by
descending count, take the first `n` entries. -/
def most_common {α : Type} [DecidableEq α] (n : Nat) (l : List α) : List (α × Nat) :=
  (sortByCountDesc (counter l)).take n

/-- The frequency ranker `top_k` of the pipeline, as invoked at
`hashtag_counts.most_common(10)` and `word_counts.most_common(20)`. -/
def top_k (tokens : List (List Char)) (k : Nat) : List (List Char × Nat) :=
  most_common k tokens

/-- Python `str.split()` with an accumulator for the current chunk (held
reversed): splits on whitespace runs and drops empty chunks. -/
def splitWsAux (cur : List Char) : List Char → List (List Char)
  | [] => if cur = [] then [] else [cur.reverse]
  | c :: cs =>
    if isWsChar c then
      (if cur = [] then splitWsAux [] cs else cur.reverse :: splitWsAux [] cs)
    else splitWsAux (c :: cur) cs

/-- Python `str.split()` on whitespace. -/
def splitWs (l : List Char) : List (List Char) :=
  splitWsAux [] l

/-- The word-frequency table of the word-cloud tab:
`Counter(word_text.split())` where `word_text = ' '.join(jieba.cut(all_text))`;
the argument is the segmenter's token output.  Note there is no length
filter on this path. -/
def word_counts (tokens : List (List Char)) : List (List Char × Nat) :=
  counter (splitWs (List.intercalate [' '] tokens))

/-- The word-frequency ranking `word_counts.most_common(20)` of the
word-cloud tab. -/
def top_words (tokens : List (List Char)) : List (List Char × Nat) :=
  (sortByCountDesc (word_counts tokens)).take 20

/-- Return shape of `load_and_process_data`: either a bare `None` (the
missing-text-column branch) or a two-tuple (the success branch
`(df, text_column)` and the exception branch `(None, None)`). -/
inductive LoadResult where
  | single : LoadResult
  | pair : Option Unit → Option (List Char) → LoadResult
deriving DecidableEq, Repr

/-- The accepted text column names, in priority order. -/
def textCandidates : List (List Char) :=
  ["テキスト".toList, "text".toList, "content".toList, "tweet_text".toList]

/-- The `for col in [...]: if col in df.columns` search of
`load_and_process_data`. -/
def findTextColumn (cols : List (List Char)) : Option (List Char) :=
  textCandidates.find? (fun c => cols.contains c)

/-- Control flow of `load_and_process_data`: a read failure (the `except`
branch) returns the tuple `(None, None)`; a read success with no recognized
text column returns the bare `None`; otherwise the `(df, text_column)`
tuple is returned. -/
def load_and_process_data (readOk : Bool) (cols : List (List Char)) : LoadResult :=
  if readOk then
    match findTextColumn cols with
    | none => LoadResult.single
    | some c => LoadResult.pair (some ()) (some c)
  else LoadResult.pair none none

/-- Whether the caller's two-value unpacking `df, text_column = ...`
succeeds on a given return shape. -/
def unpacksToTwo : LoadResult → Bool
  | LoadResult.single => false
  | LoadResult.pair _ _ => true

/-- Index pairs of the lookahead-2 window, written from the specification:
position `i` is paired with `i+1` and `i+2` only, bounded by the sequence
end. -/
def lookahead2 (n : Nat) : List (Nat × Nat) :=
  (List.range n).flatMap (fun i =>
    (if i + 1 < n then [(i, i + 1)] else []) ++ (if i + 2 < n then [(i, i + 2)] else []))

/-- Python string comparison `a < b`: lexicographic on code points, a proper
prefix being smaller. -/
def listLt : List Char → List Char → Bool
  | [], [] => false
  | [], _ :: _ => true
  | _ :: _, [] => false
  | a :: as, b :: bs =>
    decide (a.toNat < b.toNat) || (decide (a.toNat = b.toNat) && listLt as bs)

/-- Python `tuple(sorted([a, b]))` on two strings: stable two-element sort,
swapping only when `b < a`. -/
def sortPair (a b : List Char) : List Char × List Char :=
  if listLt b a then (b, a) else (a, b)

/-- Co-occurrence pairs of one post's token sequence, as in the source loop
`for i in range(len(words)): for j in range(i+1, min(i+3, len(words)))`,
each pair canonicalized by `sortPair`. -/
def postPairs (words : List (List Char)) : List (List Char × List Char) :=
  (List.range words.length).flatMap (fun i =>
    (List.range' (i + 1) (min (i + 3) words.length - (i + 1))).map (fun j =>
      sortPair (words.getD i []) (words.getD j [])))

/-- The `word_pairs` accumulation over a batch: each post's segmenter output
is filtered to tokens of length `> 1` (`len(w) > 1`) and its windowed pairs
are appended in batch order. -/
def word_pairs (batch : List (List (List Char))) : List (List Char × List Char) :=
  batch.flatMap (fun tokens => postPairs (tokens.filter (fun w => 1 < w.length)))

/-- The retained co-occurrence edges `pair_counts.most_common(20)`: the top
20 canonical pairs by accumulated weight. -/
def top_pairs (batch : List (List (List Char))) : List ((List Char × List Char) × Nat) :=
  most_common 20 (word_pairs batch)

/-- Concrete batch of the filter-fallback scenario: posts with normalized
texts `"no tag here"` and `"has #foo tag"`. -/
def c2Batch : List Post :=
  [⟨"no tag here".toList, []⟩, ⟨"has #foo tag".toList, ["#foo".toList]⟩]

theorem mem_of_mem_keysInOrderF {α : Type} [DecidableEq α] :
    ∀ (f : Nat) (l : List α) (a : α), a ∈ keysInOrderF f l → a ∈ l := by
  intro f
  induction f with
  | zero => intro l a h; simp [keysInOrderF] at h
  | succ f ih =>
    intro l a h
    cases l with
    | nil => simp [keysInOrderF] at h
    | cons x xs =>
      simp only [keysInOrderF, List.mem_cons] at h
      rcases h with h | h
      · exact h ▸ List.mem_cons_self x xs
      · exact List.mem_cons_of_mem x (List.mem_filter.mp (ih _ _ h)).1

theorem insertDesc_perm {α : Type} (x : α × Nat) (l : List (α × Nat)) :
    (insertDesc x l).Perm (x :: l) := by
  induction l with
  | nil => simp [insertDesc]
  | cons y ys ih =>
    simp only [insertDesc]
    split
    · exact List.Perm.refl _
    · exact (List.Perm.cons y ih).trans (List.Perm.swap x y ys)

theorem sortByCountDesc_perm {α : Type} (l : List (α × Nat)) :
    (sortByCountDesc l).Perm l := by
  induction l with
  | nil => exact List.Perm.refl _
  | cons x xs ih => exact (insertDesc_perm x (sortByCountDesc xs)).trans (List.Perm.cons x ih)

theorem mem_insertDesc {α : Type} {x y : α × Nat} {l : List (α × Nat)} :
    y ∈ insertDesc x l ↔ y = x ∨ y ∈ l := by
  rw [(insertDesc_perm x l).mem_iff, List.mem_cons]

theorem counter_shape {α : Type} [DecidableEq α] {l : List α} {e : α × Nat}
    (h : e ∈ counter l) : e.1 ∈ l ∧ e.2 = l.count e.1 := by
  simp only [counter, List.mem_map] at h
  obtain ⟨k, hk, he⟩ := h
  subst he
  exact ⟨mem_of_mem_keysInOrderF _ _ _ hk, rfl⟩

theorem countOcc_pos {α : Type} [DecidableEq α] {a : α} {l : List α} (h : a ∈ l) :
    0 < countOcc a l :=
  List.count_pos_iff.mpr h

theorem pairwise_insertDesc {α : Type} {x : α × Nat} {l : List (α × Nat)}
    (h : l.Pairwise (fun a b => b.2 ≤ a.2)) :
    (insertDesc x l).Pairwise (fun a b => b.2 ≤ a.2) := by
  induction l with
  | nil => simp [insertDesc]
  | cons y ys ih =>
    rw [List.pairwise_cons] at h
    simp only [insertDesc]
    split
    · refine List.Pairwise.cons ?_ (List.Pairwise.cons h.1 h.2)
      intro z hz
      rcases List.mem_cons.mp hz with hz | hz
      · subst hz; assumption
      · exact le_trans (h.1 z hz) (by assumption)
    · refine List.Pairwise.cons ?_ (ih h.2)
      intro z hz
      rcases mem_insertDesc.mp hz with hz | hz
      · subst hz; omega
      · exact h.1 z hz

theorem pairwise_sortByCountDesc {α : Type} (l : List (α × Nat)) :
    (sortByCountDesc l).Pairwise (fun a b => b.2 ≤ a.2) := by
  induction l with
  | nil => simp [sortByCountDesc]
  | cons x xs ih => exact pairwise_insertDesc ih

theorem filter_insertDesc {α : Type} (x : α × Nat) (l : List (α × Nat)) (c : Nat) :
    (insertDesc x l).filter (fun e => e.2 == c) =
      if x.2 = c then x :: l.filter (fun e => e.2 == c)
      else l.filter (fun e => e.2 == c) := by
  induction l with
  | nil => simp [insertDesc, List.filter]; split <;> simp_all
  | cons y ys ih =>
    simp only [insertDesc]
    split
    · by_cases hx : x.2 = c <;> simp [List.filter_cons, hx]
    · rename_i hy
      by_cases hyc : y.2 = c
      · by_cases hx : x.2 = c
        · omega
        · simp [List.filter_cons, hyc, hx, ih]
      · simp [List.filter_cons, hyc, ih]

theorem filter_sortByCountDesc {α : Type} (l : List (α × Nat)) (c : Nat) :
    (sortByCountDesc l).filter (fun e => e.2 == c) = l.filter (fun e => e.2 == c) := by
  induction l with
  | nil => rfl
  | cons x xs ih =>
    simp only [sortByCountDesc, filter_insertDesc, List.filter_cons, ih]
    by_cases hx : x.2 = c <;> simp [hx]

theorem mem_word_pairs {batch : List (List (List Char))} {p : List Char × List Char}
    (h : p ∈ word_pairs batch) :
    ∃ a b, 1 < a.length ∧ 1 < b.length ∧ p = sortPair a b := by
  simp only [word_pairs, postPairs, List.mem_flatMap, List.mem_map, List.mem_range,
    List.mem_range'_1] at h
  obtain ⟨tokens, -, i, hi, j, hj, hp⟩ := h
  have hjlen : j < (tokens.filter (fun w => 1 < w.length)).length := by omega
  have hmem : ∀ m : Nat, m < (tokens.filter (fun w => 1 < w.length)).length →
      1 < ((tokens.filter (fun w => 1 < w.length)).getD m []).length := by
    intro m hm
    have hget : (tokens.filter (fun w => 1 < w.length)).getD m [] =
        (tokens.filter (fun w => 1 < w.length))[m] := by
      simp [List.getD_eq_getElem?_getD, List.getElem?_eq_getElem hm]
    rw [hget]
    have := List.getElem_mem hm
    have := (List.mem_filter.mp this).2
    simpa using this
  exact ⟨_, _, hmem i hi, hmem j hjlen, hp.symm⟩

/-- C5: the graph builder is deterministic: identical batches yield
identical accumulated pair lists and identical retained edge lists,
including order, since the embedded `Counter` iterates in insertion order
and the sort is stable. -/
theorem c5_build_graph_deterministic (b₁ b₂ : List (List (List Char))) (h : b₁ = b₂) :
    word_pairs b₁ = word_pairs b₂ ∧ top_pairs b₁ = top_pairs b₂ := by
  subst h; exact ⟨rfl, rfl⟩

theorem c5_witness :
    word_pairs [["ab".toList, "cd".toList]] = word_pairs [["ab".toList, "cd".toList]] ∧
    top_pairs [["ab".toList, "cd".toList]] = top_pairs [["ab".toList, "cd".toList]] :=
  c5_build_graph_deterministic [["ab".toList, "cd".toList]] [["ab".toList, "cd".toList]] rfl

/-- C8: the sentiment scorer never raises: a missing input scores `0.0`, the
empty string scores `0.0`, and whenever the underlying polarity model
raises (modelled by `none`), the score is `0.0` instead of an error. -/
theorem c8_sentiment_never_raises (model : List Char → Option ℚ) :
    analyze_sentiment model none = 0 ∧ analyze_sentiment model (some []) = 0 ∧
    ∀ t, model t = none → analyze_sentiment model (some t) = 0 := by
  refine ⟨rfl, rfl, ?_⟩
  intro t h
  by_cases ht : t = [] <;> simp [analyze_sentiment, ht, h]

theorem c8_witness : analyze_sentiment (fun _ => none) (some ['a']) = 0 :=
  (c8_sentiment_never_raises (fun _ => none)).2.2 ['a'] rfl

/-- C10: when no recognized text column exists, `load_and_process_data`
returns a bare `None` — unlike the two-tuple returned on success and on a
read exception — so the caller's two-value unpacking fails on exactly this
branch. -/
theorem c10_load_missing_column_shape (cols : List (List Char)) :
    (findTextColumn cols = none →
      load_and_process_data true cols = LoadResult.single ∧
      unpacksToTwo (load_and_process_data true cols) = false) ∧
    (load_and_process_data false cols = LoadResult.pair none none ∧
      unpacksToTwo (load_and_process_data false cols) = true) ∧
    (∀ c, findTextColumn cols = some c →
      load_and_process_data true cols = LoadResult.pair (some ()) (some c) ∧
      unpacksToTwo (load_and_process_data true cols) = true) := by
  refine ⟨?_, ⟨rfl, rfl⟩, ?_⟩
  · intro h
    simp [load_and_process_data, h, unpacksToTwo]
  · intro c h
    simp [load_and_process_data, h, unpacksToTwo]

theorem c10_witness :
    load_and_process_data true [] = LoadResult.single ∧
    unpacksToTwo (load_and_process_data true []) = false :=
  (c10_load_missing_column_shape []).1 rfl

/-- C2 counterexample: on the stated batch the first (substring) pass is
already non-empty — it selects the second post because normalization
preserves `#`, so `"#foo"` occurs in the normalized text — refuting the
claim that the result is produced by the hashtag-column fallback after a
zero-match first pass. -/
theorem c2_counterexample :
    c2Batch.filter (fun p => containsSub (lowerStr p.normalized) (lowerStr "#foo".toList)) =
      [⟨"has #foo tag".toList, ["#foo".toList]⟩] ∧
    ¬ (c2Batch.filter
        (fun p => containsSub (lowerStr p.normalized) (lowerStr "#foo".toList))).length = 0 := by
  constructor
  · decide
  · decide

/-- C2 (amended): `filter_by_hashtag` on the stated batch returns exactly
the second post, selected by the first (case-insensitive substring) pass;
the hashtag-column fallback is not consulted because the first pass is
non-empty. -/
theorem c2_filter_selects_second_post :
    filter_by_hashtag c2Batch "#foo".toList = [⟨"has #foo tag".toList, ["#foo".toList]⟩] ∧
    (c2Batch.filter
      (fun p => containsSub (lowerStr p.normalized) (lowerStr "#foo".toList))).length ≠ 0 := by
  constructor
  · decide
  · decide

theorem char_eq_of_toNat_eq {a b : Char} (h : a.toNat = b.toNat) : a = b := by
  have h1 : a.val.toNat = b.val.toNat := h
  exact Char.ext (UInt32.toNat.inj h1)

theorem listLt_asymm : ∀ (a b : List Char), listLt a b = true → listLt b a = false := by
  intro a
  induction a with
  | nil =>
    intro b h
    cases b with
    | nil => simp [listLt] at h
    | cons y ys => simp [listLt]
  | cons x xs ih =>
    intro b h
    cases b with
    | nil => simp [listLt] at h
    | cons y ys =>
      simp only [listLt, Bool.or_eq_true, Bool.and_eq_true, decide_eq_true_eq] at h
      rw [Bool.eq_false_iff]
      intro hc
      simp only [listLt, Bool.or_eq_true, Bool.and_eq_true, decide_eq_true_eq] at hc
      rcases h with h | ⟨he, hlt⟩ <;> rcases hc with hc | ⟨hce, hclt⟩
      · omega
      · omega
      · omega
      · rw [ih ys hlt] at hclt
        exact Bool.false_ne_true hclt

theorem listLt_antisymm : ∀ (a b : List Char), listLt a b = false → listLt b a = false → a = b := by
  intro a
  induction a with
  | nil =>
    intro b h1 _
    cases b with
    | nil => rfl
    | cons y ys => simp [listLt] at h1
  | cons x xs ih =>
    intro b h1 h2
    cases b with
    | nil => simp [listLt] at h2
    | cons y ys =>
      simp only [listLt, Bool.or_eq_false_iff, Bool.and_eq_false_iff,
        decide_eq_false_iff_not] at h1 h2
      have hxy : x = y := char_eq_of_toNat_eq (by omega)
      subst hxy
      rcases h1.2 with h | h
      · omega
      · rcases h2.2 with h' | h'
        · omega
        · rw [ih ys h h']

theorem sortPair_comm (a b : List Char) : sortPair a b = sortPair b a := by
  unfold sortPair
  cases h1 : listLt b a <;> cases h2 : listLt a b
  · rw [if_neg Bool.false_ne_true, if_neg Bool.false_ne_true, listLt_antisymm a b h2 h1]
  · rw [if_neg Bool.false_ne_true, if_pos rfl]
  · rw [if_pos rfl, if_neg Bool.false_ne_true]
  · rw [listLt_asymm a b h2] at h1
    exact absurd h1 Bool.false_ne_true

theorem sortPair_canon (a b : List Char) :
    listLt (sortPair a b).2 (sortPair a b).1 = false := by
  unfold sortPair
  cases h : listLt b a
  · rw [if_neg Bool.false_ne_true]
    exact h
  · rw [if_pos rfl]
    exact listLt_asymm b a h

theorem postPairs_eq_lookahead (ws : List (List Char)) :
    postPairs ws = (lookahead2 ws.length).map
      (fun ij => sortPair (ws.getD ij.1 []) (ws.getD ij.2 [])) := by
  unfold postPairs lookahead2
  rw [List.map_flatMap]
  apply List.flatMap_congr
  intro i _
  rcases Nat.lt_or_ge (i + 2) ws.length with h2 | h2
  · have hm : min (i + 3) ws.length - (i + 1) = 2 := by omega
    rw [hm]
    have h1 : i + 1 < ws.length := by omega
    simp [List.range', h1, h2]
  · rcases Nat.lt_or_ge (i + 1) ws.length with h1 | h1
    · have hm : min (i + 3) ws.length - (i + 1) = 1 := by omega
      rw [hm]
      have h2' : ¬(i + 2 < ws.length) := by omega
      simp [List.range', h1, h2']
    · have hm : min (i + 3) ws.length - (i + 1) = 0 := by omega
      rw [hm]
      have h1' : ¬(i + 1 < ws.length) := by omega
      have h2' : ¬(i + 2 < ws.length) := by omega
      simp [List.range', h1', h2']

theorem lookahead2_mem (n i j : Nat) :
    (i, j) ∈ lookahead2 n ↔ (j = i + 1 ∨ j = i + 2) ∧ j < n := by
  simp only [lookahead2, List.mem_flatMap, List.mem_range, List.mem_append]
  constructor
  · rintro ⟨a, ha, hm | hm⟩ <;> split_ifs at hm <;> simp only [List.mem_singleton,
      Prod.mk.injEq, List.not_mem_nil] at hm
    · obtain ⟨rfl, rfl⟩ := hm
      exact ⟨Or.inl rfl, by omega⟩
    · obtain ⟨rfl, rfl⟩ := hm
      exact ⟨Or.inr rfl, by omega⟩
  · rintro ⟨hj | hj, hjn⟩
    · refine ⟨i, by omega, Or.inl ?_⟩
      rw [if_pos (by omega : i + 1 < n)]
      simp [hj]
    · refine ⟨i, by omega, Or.inr ?_⟩
      rw [if_pos (by omega : i + 2 < n)]
      simp [hj]

theorem lookahead2_nodup (n : Nat) : (lookahead2 n).Nodup := by
  unfold lookahead2
  rw [List.nodup_flatMap]
  have hfst : ∀ (a : Nat) (p : Nat × Nat),
      p ∈ ((if a + 1 < n then [(a, a + 1)] else []) ++
        (if a + 2 < n then [(a, a + 2)] else [])) → p.1 = a := by
    intro a p hp
    rcases List.mem_append.mp hp with h | h <;> split_ifs at h <;>
      simp only [List.mem_singleton, List.not_mem_nil] at h <;> simp [h]
  constructor
  · intro i _
    split_ifs <;> simp
  · refine List.Pairwise.imp ?_ (List.pairwise_lt_range n)
    intro a b hab
    intro p hp1 hp2
    have e1 := hfst a p hp1
    have e2 := hfst b p hp2
    omega

/-- C6: the graph builder pairs the token at position `i` with the tokens at
positions `i+1` and `i+2` only, bounded by the end of the sequence: the
per-post pair list is exactly the image of the lookahead-2 index pairs
under canonical pairing, the index-pair list is characterized by
`j ∈ {i+1, i+2}` with `j` in range, it has no duplicates (each occurrence
contributes exactly one entry), and the global counter gives every
canonical key its exact multiplicity. -/
theorem c6_lookahead_window (ws : List (List Char)) :
    (postPairs ws = (lookahead2 ws.length).map
      (fun ij => sortPair (ws.getD ij.1 []) (ws.getD ij.2 []))) ∧
    (∀ i j, (i, j) ∈ lookahead2 ws.length ↔ (j = i + 1 ∨ j = i + 2) ∧ j < ws.length) ∧
    (lookahead2 ws.length).Nodup ∧
    (∀ (batch : List (List (List Char))) (e : (List Char × List Char) × Nat),
      e ∈ counter (word_pairs batch) → e.2 = countOcc e.1 (word_pairs batch)) :=
  ⟨postPairs_eq_lookahead ws, fun i j => lookahead2_mem ws.length i j,
    lookahead2_nodup ws.length, fun _ _ h => (counter_shape h).2⟩

theorem c6_witness : (0, 1) ∈ lookahead2 (["ab".toList, "cd".toList].length) :=
  ((c6_lookahead_window ["ab".toList, "cd".toList]).2.1 0 1).mpr ⟨Or.inl rfl, by decide⟩

/-- C3 counterexample: the word-frequency ranking of the word-cloud tab has
no length filter: the single-character token `"a"` is counted and ranked,
refuting the claim that neither consumer counts tokens of length 1. -/
theorem c3_counterexample : top_words [['a']] = [(['a'], 1)] := by decide

/-- C3 (amended): only the co-occurrence graph builder filters out
single-character tokens (every accumulated pair has both components of
length `> 1`); the word-frequency ranking performs no such filtering and
counts single-character tokens. -/
theorem c3_single_char_policy :
    (∀ (batch : List (List (List Char))) (p : List Char × List Char),
      p ∈ word_pairs batch → 1 < p.1.length ∧ 1 < p.2.length) ∧
    top_words [['a']] = [(['a'], 1)] := by
  constructor
  · intro batch p hp
    obtain ⟨a, b, ha, hb, hp⟩ := mem_word_pairs hp
    subst hp
    unfold sortPair
    split
    · exact ⟨hb, ha⟩
    · exact ⟨ha, hb⟩
  · decide

theorem c3_witness :
    1 < ("aa".toList, "bb".toList).1.length ∧ 1 < ("aa".toList, "bb".toList).2.length :=
  c3_single_char_policy.1 [["aa".toList, "bb".toList]] ("aa".toList, "bb".toList) (by decide)

/-- C1 counterexample: a post whose length-filtered token sequence repeats a
token produces a retained edge whose two endpoints are the same token,
refuting the invariant `t1 ≠ t2`. -/
theorem c1_counterexample :
    (("aa".toList, "aa".toList), 1) ∈ top_pairs [["aa".toList, "aa".toList]] := by decide

/-- C1 (amended): every retained edge has a positive integer weight and a
canonicalized key — the components are in sorted order and `sortPair` is
order-independent, so `(a,b)` and `(b,a)` accumulate into one entry, as the
concrete two-post batch shows — but the two tokens of an edge need not be
distinct: a token co-occurring with an equal token yields a self-loop. -/
theorem c1_edge_invariants :
    (∀ (batch : List (List (List Char))) (e : (List Char × List Char) × Nat),
      e ∈ top_pairs batch → 0 < e.2 ∧ listLt e.1.2 e.1.1 = false) ∧
    (∀ a b, sortPair a b = sortPair b a) ∧
    counter (word_pairs [["xx".toList, "yy".toList], ["yy".toList, "xx".toList]]) =
      [(("xx".toList, "yy".toList), 2)] := by
  refine ⟨?_, sortPair_comm, by decide⟩
  intro batch e he
  simp only [top_pairs, most_common] at he
  have he' : e ∈ sortByCountDesc (counter (word_pairs batch)) := List.mem_of_mem_take he
  have he'' : e ∈ counter (word_pairs batch) := (sortByCountDesc_perm _).subset he'
  obtain ⟨hmem, hcount⟩ := counter_shape he''
  refine ⟨?_, ?_⟩
  · rw [hcount]
    exact countOcc_pos hmem
  · obtain ⟨a, b, -, -, hp⟩ := mem_word_pairs hmem
    rw [hp]
    exact sortPair_canon a b

theorem c1_witness :
    0 < ((("ab".toList, "cd".toList), 1) : (List Char × List Char) × Nat).2 ∧
    listLt (("ab".toList, "cd".toList), 1).1.2 (("ab".toList, "cd".toList), 1).1.1 = false :=
  c1_edge_invariants.1 [["ab".toList, "cd".toList]] (("ab".toList, "cd".toList), 1) (by decide)

theorem indexOf_filter_lt {α : Type} [DecidableEq α] (q : α → Bool) :
    ∀ (xs : List α) (a b : α), a ∈ xs.filter q → b ∈ xs.filter q →
      (xs.filter q).indexOf a < (xs.filter q).indexOf b → xs.indexOf a < xs.indexOf b := by
  intro xs
  induction xs with
  | nil => intro a b ha _ _; simp at ha
  | cons h t ih =>
    intro a b ha hb hlt
    by_cases hq : q h
    · rw [List.filter_cons_of_pos hq] at ha hb hlt
      by_cases hah : a = h
      · subst hah
        have hbh : b ≠ a := by
          rintro rfl
          rw [List.indexOf_cons_self] at hlt
          omega
        rw [List.indexOf_cons_self]
        rw [List.indexOf_cons_ne _ (Ne.symm hbh)]
        omega
      · by_cases hbh : b = h
        · subst hbh
          rw [List.indexOf_cons_self] at hlt
          omega
        · rw [List.indexOf_cons_ne _ (fun e => hah e.symm), List.indexOf_cons_ne _ (fun e => hbh e.symm)] at hlt
          rw [List.indexOf_cons_ne _ (fun e => hah e.symm), List.indexOf_cons_ne _ (fun e => hbh e.symm)]
          have ha' : a ∈ t.filter q := by
            rcases List.mem_cons.mp ha with h' | h'
            · exact absurd h' hah
            · exact h'
          have hb' : b ∈ t.filter q := by
            rcases List.mem_cons.mp hb with h' | h'
            · exact absurd h' hbh
            · exact h'
          exact Nat.succ_lt_succ (ih a b ha' hb' (by omega))
    · rw [List.filter_cons_of_neg hq] at ha hb hlt
      have hah : a ≠ h := by
        rintro rfl
        exact hq (List.mem_filter.mp ha).2
      have hbh : b ≠ h := by
        rintro rfl
        exact hq (List.mem_filter.mp hb).2
      rw [List.indexOf_cons_ne _ (fun e => hah e.symm), List.indexOf_cons_ne _ (fun e => hbh e.symm)]
      exact Nat.succ_lt_succ (ih a b ha hb hlt)

theorem keysInOrderF_pairwise_firstOcc {α : Type} [DecidableEq α] :
    ∀ (f : Nat) (l : List α), l.length ≤ f →
      (keysInOrderF f l).Pairwise (fun a b => l.indexOf a < l.indexOf b) := by
  intro f
  induction f with
  | zero =>
    intro l h
    cases l with
    | nil => simp [keysInOrderF]
    | cons x xs => simp at h
  | succ f ih =>
    intro l hlen
    cases l with
    | nil => simp [keysInOrderF]
    | cons x xs =>
      simp only [keysInOrderF]
      have hlen2 : (xs.filter (fun y => y != x)).length ≤ f := by
        have := List.length_filter_le (fun y => y != x) xs
        simp only [List.length_cons] at hlen
        omega
      refine List.Pairwise.cons ?_ ?_
      · intro b hb
        have hbf := mem_of_mem_keysInOrderF _ _ _ hb
        have hbx : b ≠ x := by
          have := (List.mem_filter.mp hbf).2
          simpa using this
        rw [List.indexOf_cons_self, List.indexOf_cons_ne _ (fun e => hbx e.symm)]
        omega
      · refine List.Pairwise.imp_of_mem ?_ (ih _ hlen2)
        intro a b ha hb hr
        have ha' := mem_of_mem_keysInOrderF _ _ _ ha
        have hb' := mem_of_mem_keysInOrderF _ _ _ hb
        have hax : a ≠ x := by
          have := (List.mem_filter.mp ha').2
          simpa using this
        have hbx : b ≠ x := by
          have := (List.mem_filter.mp hb').2
          simpa using this
        have h1 : xs.indexOf a < xs.indexOf b :=
          indexOf_filter_lt _ xs a b ha' hb' hr
        rw [List.indexOf_cons_ne _ (fun e => hax e.symm), List.indexOf_cons_ne _ (fun e => hbx e.symm)]
        omega

theorem counter_pairwise_firstOcc {α : Type} [DecidableEq α] (l : List α) :
    (counter l).Pairwise (fun a b => l.indexOf a.1 < l.indexOf b.1) := by
  unfold counter keysInOrder
  rw [List.pairwise_map]
  exact keysInOrderF_pairwise_firstOcc l.length l le_rfl

/-- C7: the frequency ranker returns the `k` highest-count entries sorted by
descending count with ties in first-occurrence order: the output is a
prefix of a stable descending sort of the full counter (a permutation of
it whose equal-count entries keep their relative order, the counter itself
being ordered by first occurrence), every returned count is the exact
multiplicity, every dropped entry counts no more than every kept one, and
the two concrete examples of the contract hold. -/
theorem c7_top_k_ranking :
    top_k [] 10 = [] ∧
    top_k ["a".toList, "b".toList, "a".toList] 1 = [("a".toList, 2)] ∧
    ∀ (tokens : List (List Char)) (k : Nat),
      (top_k tokens k).Pairwise (fun a b => b.2 ≤ a.2) ∧
      (∀ e ∈ top_k tokens k, e.2 = countOcc e.1 tokens) ∧
      (sortByCountDesc (counter tokens)).Perm (counter tokens) ∧
      (∀ c, (sortByCountDesc (counter tokens)).filter (fun e => e.2 == c) =
        (counter tokens).filter (fun e => e.2 == c)) ∧
      (counter tokens).Pairwise (fun a b => firstIdx a.1 tokens < firstIdx b.1 tokens) ∧
      (∀ e ∈ (sortByCountDesc (counter tokens)).take k,
        ∀ f ∈ (sortByCountDesc (counter tokens)).drop k, f.2 ≤ e.2) := by
  refine ⟨by decide, by decide, ?_⟩
  intro tokens k
  refine ⟨?_, ?_, sortByCountDesc_perm _, fun c => filter_sortByCountDesc _ c,
    counter_pairwise_firstOcc tokens, ?_⟩
  · exact List.Pairwise.sublist (List.take_sublist k _) (pairwise_sortByCountDesc _)
  · intro e he
    have he' : e ∈ counter tokens :=
      (sortByCountDesc_perm _).subset (List.mem_of_mem_take he)
    exact (counter_shape he').2
  · intro e he f hf
    have hp := pairwise_sortByCountDesc (counter tokens)
    rw [← List.take_append_drop k (sortByCountDesc (counter tokens))] at hp
    exact (List.pairwise_append.mp hp).2.2 e he f hf

theorem c7_witness :
    ("a".toList, 2).2 = countOcc ("a".toList, 2).1 ["a".toList, "b".toList, "a".toList] :=
  (c7_top_k_ranking.2.2 ["a".toList, "b".toList, "a".toList] 1).2.1 ("a".toList, 2) (by decide)

theorem isWsChar_cases {c : Char} (h : isWsChar c = true) :
    c = ' ' ∨ c = '\t' ∨ c = '\n' ∨ c = '\r' ∨ c = Char.ofNat 11 ∨ c = Char.ofNat 12 := by
  simp only [isWsChar, Bool.or_eq_true, beq_iff_eq] at h
  tauto

theorem clean_no_colon {c : Char} (h : isWordChar c = true ∨ c = '#' ∨ c = ' ') :
    c ≠ ':' := by
  rcases h with h | rfl | rfl
  · rintro rfl
    exact absurd h (by decide)
  · decide
  · decide

theorem clean_no_at {c : Char} (h : isWordChar c = true ∨ c = '#' ∨ c = ' ') :
    c ≠ '@' := by
  rcases h with h | rfl | rfl
  · rintro rfl
    exact absurd h (by decide)
  · decide
  · decide

theorem clean_not_emoji {c : Char} (h : isWordChar c = true ∨ c = '#' ∨ c = ' ') :
    isEmojiChar c = false := by
  rcases h with h | rfl | rfl
  · simp only [isWordChar, decide_eq_true_eq] at h
    simp only [isEmojiChar, decide_eq_false_iff_not]
    omega
  · decide
  · decide

theorem clean_ws_eq_space {c : Char} (h : isWordChar c = true ∨ c = '#' ∨ c = ' ')
    (hw : isWsChar c = true) : c = ' ' := by
  rcases isWsChar_cases hw with rfl | rfl | rfl | rfl | rfl | rfl
  · rfl
  all_goals rcases h with h | h | h <;> exact absurd h (by decide)

theorem matchUrl_mem_colon {l r : List Char} (h : matchUrl? l = some r) : ':' ∈ l := by
  unfold matchUrl? at h
  split at h
  · simp
  · simp
  · exact Option.noConfusion h

theorem removeUrlsF_id : ∀ (f : Nat) (l : List Char), ':' ∉ l → removeUrlsF f l = l := by
  intro f
  induction f with
  | zero => intro l _; rfl
  | succ f ih =>
    intro l h
    cases l with
    | nil => rfl
    | cons c cs =>
      simp only [removeUrlsF]
      cases hm : matchUrl? (c :: cs) with
      | some rest => exact absurd (matchUrl_mem_colon hm) h
      | none =>
        simp only []
        rw [ih cs (fun hc => h (List.mem_cons_of_mem c hc))]

theorem removeUrls_id {l : List Char} (h : ':' ∉ l) : removeUrls l = l :=
  removeUrlsF_id _ l h

theorem matchMention_mem_at {l r : List Char} (h : matchMention? l = some r) : '@' ∈ l := by
  unfold matchMention? at h
  split at h
  · simp
  · exact Option.noConfusion h

theorem removeMentionsF_id : ∀ (f : Nat) (l : List Char), '@' ∉ l → removeMentionsF f l = l := by
  intro f
  induction f with
  | zero => intro l _; rfl
  | succ f ih =>
    intro l h
    cases l with
    | nil => rfl
    | cons c cs =>
      simp only [removeMentionsF]
      cases hm : matchMention? (c :: cs) with
      | some rest => exact absurd (matchMention_mem_at hm) h
      | none =>
        simp only []
        rw [ih cs (fun hc => h (List.mem_cons_of_mem c hc))]

theorem removeMentions_id {l : List Char} (h : '@' ∉ l) : removeMentions l = l :=
  removeMentionsF_id _ l h

theorem removeEmoji_id {l : List Char} (h : ∀ c ∈ l, isEmojiChar c = false) :
    removeEmoji l = l := by
  unfold removeEmoji
  rw [List.filter_eq_self]
  intro a ha
  simp [h a ha]

theorem replaceSpecial_id : ∀ (l : List Char),
    (∀ c ∈ l, (isWordChar c || isWsChar c || c == '#') = true) → replaceSpecial l = l := by
  intro l
  induction l with
  | nil => intro _; rfl
  | cons c cs ih =>
    intro h
    simp only [replaceSpecial, List.map_cons]
    rw [if_pos (h c (List.mem_cons_self c cs))]
    have htail : replaceSpecial cs = cs := ih (fun x hx => h x (List.mem_cons_of_mem c hx))
    exact congrArg (c :: ·) htail

theorem collapseWs_id : ∀ (l : List Char),
    (∀ c ∈ l, isWordChar c = true ∨ c = '#' ∨ c = ' ') →
    l.Chain' (fun a b => isWsChar a = false ∨ isWsChar b = false) →
    collapseWs l = l := by
  intro l
  induction l with
  | nil => intro _ _; rfl
  | cons c cs ih =>
    intro hc hch
    cases cs with
    | nil =>
      simp only [collapseWs]
      by_cases hw : isWsChar c
      · rw [if_pos hw, clean_ws_eq_space (hc c (List.mem_cons_self c [])) hw]
      · rw [if_neg hw]
    | cons d ds =>
      rw [List.chain'_cons] at hch
      simp only [collapseWs]
      by_cases hw : isWsChar c
      · have hceq : c = ' ' := clean_ws_eq_space (hc c (List.mem_cons_self c (d :: ds))) hw
        have hd : isWsChar d = false := by
          rcases hch.1 with h' | h'
          · rw [hw] at h'
            exact absurd h' (by decide)
          · exact h'
        rw [if_pos hw, if_neg (by simp [hd]), hceq]
        exact congrArg (' ' :: ·)
          (ih (fun x hx => hc x (List.mem_cons_of_mem c hx)) hch.2)
      · rw [if_neg hw]
        exact congrArg (c :: ·)
          (ih (fun x hx => hc x (List.mem_cons_of_mem c hx)) hch.2)

theorem dropWhile_eq_self_of_head {p : Char → Bool} {l : List Char}
    (h : ∀ x, l.head? = some x → p x = false) : l.dropWhile p = l := by
  cases l with
  | nil => rfl
  | cons c cs => exact List.dropWhile_cons_of_neg (by simp [h c rfl])

theorem stripSpaces_id {l : List Char}
    (h1 : ∀ x, l.head? = some x → isWsChar x = false)
    (h2 : ∀ x, l.getLast? = some x → isWsChar x = false) :
    stripSpaces l = l := by
  unfold stripSpaces
  rw [dropWhile_eq_self_of_head h1]
  rw [dropWhile_eq_self_of_head (fun x hx => h2 x (by rwa [List.head?_reverse] at hx))]
  exact List.reverse_reverse l

theorem replaceSpecial_chars (l : List Char) :
    ∀ c ∈ replaceSpecial l, (isWordChar c || isWsChar c || c == '#') = true := by
  intro c hc
  simp only [replaceSpecial, List.mem_map] at hc
  obtain ⟨a, _, ha⟩ := hc
  by_cases hka : (isWordChar a || isWsChar a || a == '#') = true
  · rw [if_pos hka] at ha
    subst ha
    exact hka
  · rw [if_neg hka] at ha
    subst ha
    decide

theorem mem_collapseWs : ∀ (l : List Char) (c : Char),
    c ∈ collapseWs l → c = ' ' ∨ (c ∈ l ∧ isWsChar c = false) := by
  intro l
  induction l with
  | nil => intro c h; simp [collapseWs] at h
  | cons a as ih =>
    cases as with
    | nil =>
      intro c h
      simp only [collapseWs] at h
      by_cases hw : isWsChar a
      · rw [if_pos hw] at h
        simp only [List.mem_singleton] at h
        exact Or.inl h
      · rw [if_neg hw] at h
        simp only [List.mem_singleton] at h
        subst h
        exact Or.inr ⟨List.mem_cons_self c [], by simpa using hw⟩
    | cons d ds =>
      intro c h
      simp only [collapseWs] at h
      by_cases hw : isWsChar a
      · rw [if_pos hw] at h
        by_cases hd : isWsChar d
        · rw [if_pos hd] at h
          rcases ih c h with h' | ⟨hm, hws⟩
          · exact Or.inl h'
          · exact Or.inr ⟨List.mem_cons_of_mem a hm, hws⟩
        · rw [if_neg hd] at h
          rcases List.mem_cons.mp h with h' | h'
          · exact Or.inl h'
          · rcases ih c h' with h'' | ⟨hm, hws⟩
            · exact Or.inl h''
            · exact Or.inr ⟨List.mem_cons_of_mem a hm, hws⟩
      · rw [if_neg hw] at h
        rcases List.mem_cons.mp h with h' | h'
        · subst h'
          exact Or.inr ⟨List.mem_cons_self c (d :: ds), by simpa using hw⟩
        · rcases ih c h' with h'' | ⟨hm, hws⟩
          · exact Or.inl h''
          · exact Or.inr ⟨List.mem_cons_of_mem a hm, hws⟩

theorem collapseWs_head_of_not_ws {d : Char} (cs : List Char) (hd : isWsChar d = false) :
    (collapseWs (d :: cs)).head? = some d := by
  cases cs with
  | nil => simp [collapseWs, hd]
  | cons e es => simp [collapseWs, hd]

theorem collapseWs_chain : ∀ (l : List Char),
    (collapseWs l).Chain' (fun a b => isWsChar a = false ∨ isWsChar b = false) := by
  intro l
  induction l with
  | nil => simp [collapseWs]
  | cons a as ih =>
    cases as with
    | nil =>
      simp only [collapseWs]
      by_cases hw : isWsChar a
      · rw [if_pos hw]
        exact List.chain'_singleton ' '
      · rw [if_neg hw]
        exact List.chain'_singleton a
    | cons d ds =>
      simp only [collapseWs]
      by_cases hw : isWsChar a
      · rw [if_pos hw]
        by_cases hd : isWsChar d
        · rw [if_pos hd]
          exact ih
        · rw [if_neg hd]
          have hd' : isWsChar d = false := by simpa using hd
          rw [List.chain'_cons']
          refine ⟨?_, ih⟩
          intro b hb
          rw [collapseWs_head_of_not_ws ds hd'] at hb
          simp only [Option.mem_def, Option.some.injEq] at hb
          subst hb
          exact Or.inr hd'
      · rw [if_neg hw]
        rw [List.chain'_cons']
        refine ⟨?_, ih⟩
        intro b _
        exact Or.inl (by simpa using hw)

theorem stripSpaces_subset {l : List Char} {c : Char} (h : c ∈ stripSpaces l) : c ∈ l := by
  unfold stripSpaces at h
  rw [List.mem_reverse] at h
  have h1 := (List.dropWhile_suffix isWsChar).subset h
  rw [List.mem_reverse] at h1
  exact (List.dropWhile_suffix isWsChar).subset h1

theorem stripSpaces_chain {l : List Char}
    (h : l.Chain' (fun a b => isWsChar a = false ∨ isWsChar b = false)) :
    (stripSpaces l).Chain' (fun a b => isWsChar a = false ∨ isWsChar b = false) := by
  have hrev : ∀ (w : List Char),
      w.Chain' (fun a b => isWsChar a = false ∨ isWsChar b = false) →
      w.reverse.Chain' (fun a b => isWsChar a = false ∨ isWsChar b = false) := by
    intro w hw
    rw [List.chain'_reverse]
    exact hw.imp (fun a b hab => hab.symm)
  unfold stripSpaces
  exact hrev _ ((hrev _ (h.suffix (List.dropWhile_suffix _))).suffix (List.dropWhile_suffix _))

theorem head_dropWhile_false {p : Char → Bool} :
    ∀ (l : List Char) (x : Char), (l.dropWhile p).head? = some x → p x = false := by
  intro l
  induction l with
  | nil => intro x hx; simp at hx
  | cons c cs ih =>
    intro x hx
    by_cases hc : p c
    · rw [List.dropWhile_cons_of_pos hc] at hx
      exact ih x hx
    · rw [List.dropWhile_cons_of_neg hc] at hx
      simp only [List.head?_cons, Option.some.injEq] at hx
      subst hx
      simpa using hc

theorem getLast?_of_suffix {l₁ l₂ : List Char} (h : l₁ <:+ l₂) (hne : l₁ ≠ []) :
    l₁.getLast? = l₂.getLast? := by
  obtain ⟨t, rfl⟩ := h
  rw [List.getLast?_append]
  cases hl : l₁.getLast? with
  | none => exact absurd (List.getLast?_eq_none_iff.mp hl) hne
  | some y => rfl

theorem stripSpaces_head {l : List Char} {x : Char}
    (hx : (stripSpaces l).head? = some x) : isWsChar x = false := by
  unfold stripSpaces at hx
  rw [List.head?_reverse] at hx
  have hne : (l.dropWhile isWsChar).reverse.dropWhile isWsChar ≠ [] := by
    intro he
    rw [he] at hx
    simp at hx
  rw [getLast?_of_suffix (List.dropWhile_suffix _) hne, List.getLast?_reverse] at hx
  exact head_dropWhile_false l x hx

theorem stripSpaces_last {l : List Char} {x : Char}
    (hx : (stripSpaces l).getLast? = some x) : isWsChar x = false := by
  unfold stripSpaces at hx
  rw [List.getLast?_reverse] at hx
  exact head_dropWhile_false _ x hx

theorem preprocessStr_clean (l : List Char) :
    (∀ c ∈ preprocessStr l, isWordChar c = true ∨ c = '#' ∨ c = ' ') ∧
    (preprocessStr l).Chain' (fun a b => isWsChar a = false ∨ isWsChar b = false) ∧
    (∀ x, (preprocessStr l).head? = some x → isWsChar x = false) ∧
    (∀ x, (preprocessStr l).getLast? = some x → isWsChar x = false) := by
  refine ⟨?_, ?_, fun x hx => stripSpaces_head hx, fun x hx => stripSpaces_last hx⟩
  · intro c hc
    have hsub : c ∈ collapseWs (replaceSpecial (removeEmoji (removeMentions (removeUrls l)))) :=
      stripSpaces_subset hc
    rcases mem_collapseWs _ c hsub with rfl | ⟨hmem, hws⟩
    · exact Or.inr (Or.inr rfl)
    · have hk := replaceSpecial_chars _ c hmem
      simp only [Bool.or_eq_true, beq_iff_eq] at hk
      rcases hk with (h' | h') | h'
      · exact Or.inl h'
      · rw [hws] at h'
        exact absurd h' (by decide)
      · exact Or.inr (Or.inl h')
  · exact stripSpaces_chain (collapseWs_chain _)

theorem preprocessStr_id_of_clean (l : List Char)
    (hchars : ∀ c ∈ l, isWordChar c = true ∨ c = '#' ∨ c = ' ')
    (hch : l.Chain' (fun a b => isWsChar a = false ∨ isWsChar b = false))
    (hh : ∀ x, l.head? = some x → isWsChar x = false)
    (hl : ∀ x, l.getLast? = some x → isWsChar x = false) :
    preprocessStr l = l := by
  have hnc : ':' ∉ l := fun hm => clean_no_colon (hchars _ hm) rfl
  have hna : '@' ∉ l := fun hm => clean_no_at (hchars _ hm) rfl
  have hne : ∀ c ∈ l, isEmojiChar c = false := fun c hc => clean_not_emoji (hchars c hc)
  have hk : ∀ c ∈ l, (isWordChar c || isWsChar c || c == '#') = true := by
    intro c hc
    rcases hchars c hc with h' | h' | h'
    · simp [h']
    · subst h'
      decide
    · subst h'
      decide
  unfold preprocessStr
  rw [removeUrls_id hnc, removeMentions_id hna, removeEmoji_id hne, replaceSpecial_id l hk,
    collapseWs_id l hchars hch, stripSpaces_id hh hl]

/-- C4: the normalizer is idempotent: applying the five-step normalization
(URL removal, mention removal, emoji removal, special-character
replacement, whitespace collapsing with trim, in that order) twice gives
the same result as applying it once, for every input string. -/
theorem c4_normalize_idempotent (x : List Char) :
    preprocess_text (some (preprocess_text (some x))) = preprocess_text (some x) := by
  obtain ⟨h1, h2, h3, h4⟩ := preprocessStr_clean x
  exact preprocessStr_id_of_clean _ h1 h2 h3 h4

/-- C9: the normalizer's output never contains an emoji code point, never
contains `@` followed by a word character, never contains the `://` of a
URL scheme (indeed contains no `@` and no `:` at all), and a missing input
maps to the empty string rather than an error. -/
theorem c9_normalizer_output_free (x : List Char) :
    preprocess_text none = [] ∧
    (∀ c ∈ preprocess_text (some x), isEmojiChar c = false) ∧
    '@' ∉ preprocess_text (some x) ∧
    ':' ∉ preprocess_text (some x) ∧
    (∀ c, isWordChar c = true → ¬ ['@', c] <:+: preprocess_text (some x)) ∧
    ¬ [':', '/', '/'] <:+: preprocess_text (some x) := by
  have hclean := (preprocessStr_clean x).1
  have hat : '@' ∉ preprocess_text (some x) := fun hm => clean_no_at (hclean _ hm) rfl
  have hcol : ':' ∉ preprocess_text (some x) := fun hm => clean_no_colon (hclean _ hm) rfl
  refine ⟨rfl, fun c hc => clean_not_emoji (hclean c hc), hat, hcol, ?_, ?_⟩
  · intro c _ hinf
    obtain ⟨s, t, heq⟩ := hinf
    exact hat (by rw [← heq]; simp)
  · intro hinf
    obtain ⟨s, t, heq⟩ := hinf
    exact hcol (by rw [← heq]; simp)

theorem c9_witness :
    ¬ ['@', 'a'] <:+:
      preprocess_text (some ("hi @user see https://x.co".toList ++ [Char.ofNat 0x1F600])) :=
  ((c9_normalizer_output_free
    ("hi @user see https://x.co".toList ++ [Char.ofNat 0x1F600])).2.2.2.2.1) 'a' rfl
